import Mathlib

/-!
Verification development for the TwitchTicker repository
(src/TwitchTicker.py).

The program is embedded shallowly:

* Python strings are modelled as `List Nat` of Unicode code points
  (Python `str` is a sequence of code points; all string operations the
  program performs are code-point-wise).  Case mapping (`str.upper`,
  `str.lower`, `re.IGNORECASE`) is modelled on the ASCII range, which is
  the range the program's own constants and Twitch user names use.
* Python whitespace (`\s`, `str.split()`, `str.strip()`) is modelled by
  the six ASCII whitespace code points.
* The module-level mutable state (`headlines` deque, `_update_counter`)
  is a `TickerState`; the two mutation steps of `event_message`
  (`headlines.appendleft`, `mark_updated`) and the two read steps of
  `api_headlines` (`get_update_counter`, `list(headlines)`) are modelled
  as individual atomic actions, interleaved by an explicit scheduler, so
  that statements about concurrent readers are statements about all
  interleavings.
* The remote generation backend (`requests.post` + JSON parsing) is an
  oracle `BackendBehavior`: `failure` covers every raised exception
  (network error, timeout, `raise_for_status`, malformed body), and
  `response t` a successful request whose parsed `response` field is `t`.
* The random draw `random.random()` and the configured `MESSAGE_RATE`
  are rationals (floats are a subset of the rationals and all the
  program does with them is compare).
-/

namespace TwitchTicker

/-! ### Character classes (ASCII model of the Python ones) -/

/-- Python whitespace (`\s`, `str.split()`, `str.strip()`): space, tab,
newline, carriage return, vertical tab, form feed. -/
def isWs (c : Nat) : Bool :=
  c == 32 || c == 9 || c == 10 || c == 13 || c == 11 || c == 12

/-- Lowercase ASCII letter test (`str.islower` per character). -/
def isLowerC (c : Nat) : Bool := decide (97 ≤ c ∧ c ≤ 122)

/-- Uppercase ASCII letter test. -/
def isUpperC (c : Nat) : Bool := decide (65 ≤ c ∧ c ≤ 90)

/-- Character-wise `str.upper` (ASCII range). -/
def upChar (c : Nat) : Nat := if 97 ≤ c ∧ c ≤ 122 then c - 32 else c

/-- Character-wise `str.lower` (ASCII range). -/
def lowChar (c : Nat) : Nat := if 65 ≤ c ∧ c ≤ 90 then c + 32 else c

/-- Python `str.isupper`: at least one cased character and no lowercase
cased character. -/
def pyIsUpper (w : List Nat) : Bool :=
  w.any (fun c => isLowerC c || isUpperC c) && !(w.any isLowerC)

/-- Code points of a string literal, for writing the program's constant
strings. -/
def strL (s : String) : List Nat := s.toList.map Char.toNat

/-- Python `str.lower` on a whole string. -/
def lowerL (l : List Nat) : List Nat := l.map lowChar

/-! ### Whitespace splitting, joining, collapsing, stripping -/

/-- Python `str.split()` (no argument): maximal runs of non-whitespace
characters, leading/trailing/repeated whitespace ignored. -/
def splitWs : List Nat → List (List Nat)
  | [] => []
  | c :: cs =>
    if isWs c then splitWs cs
    else
      match cs with
      | [] => [[c]]
      | d :: _ =>
        if isWs d then [c] :: splitWs cs
        else
          match splitWs cs with
          | [] => [[c]]
          | t :: ts => (c :: t) :: ts

/-- Python `" ".join(...)`. -/
def joinSp : List (List Nat) → List Nat
  | [] => []
  | [t] => t
  | t :: u :: ts => t ++ 32 :: joinSp (u :: ts)

/-- Python `re.sub(r"\s+", " ", s)`: each maximal whitespace run becomes
a single space (emitted at the end of the run, which yields the same
string). -/
def collapseWs : List Nat → List Nat
  | [] => []
  | [c] => if isWs c then [32] else [c]
  | c :: d :: cs =>
    if isWs c then
      if isWs d then collapseWs (d :: cs) else 32 :: collapseWs (d :: cs)
    else c :: collapseWs (d :: cs)

/-- Python `str.lstrip()`. -/
def lstripWs (l : List Nat) : List Nat := l.dropWhile isWs

/-- Python `str.rstrip()`. -/
def rstripWs (l : List Nat) : List Nat := (l.reverse.dropWhile isWs).reverse

/-- Python `str.strip()`. -/
def pyStrip (l : List Nat) : List Nat := rstripWs (lstripWs l)

/-- Python `str.strip(ch)` for a single strip character `q`:
remove every leading and trailing occurrence of `q`. -/
def stripChar (q : Nat) (l : List Nat) : List Nat :=
  ((l.dropWhile (fun c => c == q)).reverse.dropWhile (fun c => c == q)).reverse

/-! ### URL removal (`re.sub(r"https?://\S+", "", msg)`) -/

/-- Length of the regex match `https?://\S+` anchored at the head of
`l`, if any: the scheme part (`https://` preferred over `http://`, as
the greedy `s?` does) followed by at least one non-whitespace
character, extending over the maximal non-whitespace run. -/
def urlMatchLen (l : List Nat) : Option Nat :=
  if (strL ("https://")).isPrefixOf l then
    let run := (l.drop 8).takeWhile (fun c => !(isWs c))
    if run.isEmpty then none else some (8 + run.length)
  else if (strL ("http://")).isPrefixOf l then
    let run := (l.drop 7).takeWhile (fun c => !(isWs c))
    if run.isEmpty then none else some (7 + run.length)
  else none

/-- Left-to-right, non-overlapping removal of `https?://\S+` matches,
as `re.sub` scans.  The fuel argument only makes the recursion
structural; every match consumes at least seven characters while fuel
decreases by one, so `stripUrls` below (fuel = length) never exhausts
it. -/
def stripUrlsF : Nat → List Nat → List Nat
  | _, [] => []
  | 0, l => l
  | fuel + 1, c :: cs =>
    match urlMatchLen (c :: cs) with
    | some k => stripUrlsF fuel (List.drop k (c :: cs))
    | none => c :: stripUrlsF fuel cs

/-- Python `re.sub(r"https?://\S+", "", msg)`. -/
def stripUrls (l : List Nat) : List Nat := stripUrlsF l.length l

/-! ### Case-insensitive replacement
(`re.sub(re.escape(username), username, headline, flags=re.IGNORECASE)`) -/

/-- Case-insensitive match of the pattern `u` (a literal, as
`re.escape` makes it) against a prefix of the text. -/
def matchesCI : List Nat → List Nat → Bool
  | [], _ => true
  | _ :: _, [] => false
  | p :: ps, t :: ts => lowChar p == lowChar t && matchesCI ps ts

/-- Left-to-right, non-overlapping replacement of case-insensitive
occurrences of `u` by `u` itself.  With an empty pattern `re.sub`
inserts the empty replacement, leaving the text unchanged, hence the
`u.isEmpty` guard.  Fuel as in `stripUrlsF`: a match consumes
`u.length ≥ 1` characters per unit of fuel. -/
def ciReplaceF (u : List Nat) : Nat → List Nat → List Nat
  | _, [] => []
  | 0, l => l
  | fuel + 1, c :: cs =>
    if u.isEmpty then c :: cs
    else if matchesCI u (c :: cs) then
      u ++ ciReplaceF u fuel (cs.drop (u.length - 1))
    else c :: ciReplaceF u fuel cs

/-- The username-restoring `re.sub` of the source. -/
def ciReplace (u l : List Nat) : List Nat := ciReplaceF u l.length l

/-! ### The Sanitizer (`clean_message`, source lines 56-63) -/

/-- Source `clean_message`: drop URLs, collapse whitespace and strip,
truncate to 300 code points plus a single ellipsis (code point 8230)
when longer. -/
def clean_message (msg : List Nat) : List Nat :=
  if msg = [] then []
  else
    let m1 := stripUrls msg
    let m2 := pyStrip (collapseWs m1)
    if 300 < m2.length then m2.take 300 ++ [8230] else m2

/-! ### Title casing (`smart_title`, source lines 78-83) -/

/-- The inner `fix` of `smart_title`: keep a fully-uppercase word,
otherwise uppercase its first character (`word[:1].upper() + word[1:]`). -/
def fixWord (w : List Nat) : List Nat :=
  if pyIsUpper w then w
  else
    match w with
    | [] => []
    | c :: cs => upChar c :: cs

/-- Source `smart_title`: `" ".join(fix(w) for w in s.split())`. -/
def smart_title (s : List Nat) : List Nat := joinSp ((splitWs s).map fixWord)

/-! ### The fallback (`template_fallback`, source lines 66-75) -/

/-- Python `max(options, key=len)`: fold keeping the current best,
replacing it only on a strictly greater length, so the first longest
option wins. -/
def maxByLen (first : List Nat) (rest : List (List Nat)) : List Nat :=
  rest.foldl (fun acc x => if acc.length < x.length then x else acc) first

/-- The four f-string options of `template_fallback`, in source order.
The source also computes a `base` string which it never uses. -/
def fallbackOptions (username message : List Nat) : List (List Nat) :=
  [ strL ("BREAKING: ") ++ username ++ strL (" Stuns The Internet — ") ++ message
  , strL ("ALERT: ") ++ username ++ strL (" Sparks Frenzy — ") ++ message
  , strL ("LIVE NOW: ") ++ username ++ strL (" Shocks Chat — ") ++ message
  , strL ("HEADS UP: ") ++ username ++ strL (" Just Dropped This — ") ++ message ]

/-- Source `template_fallback`: longest option, title-cased. -/
def template_fallback (username message : List Nat) : List Nat :=
  match fallbackOptions username message with
  | [] => []
  | o :: os => smart_title (maxByLen o os)

/-! ### The Transformer (`generate_headline_local_llm`, source lines 103-137) -/

/-- Configured `HEADLINE_MAX_WORDS` (default 14). -/
def HEADLINE_MAX_WORDS : Nat := 14

/-- Observable behaviour of the remote backend call
(`requests.post` + `resp.raise_for_status()` + `resp.json().get("response", "")`):
`failure` is any raised exception (network error, timeout, non-success
status, malformed JSON body); `response t` is a successful call whose
parsed `response` field is the text `t` (a missing field gives
`response []`). -/
inductive BackendBehavior where
  | failure
  | response (raw : List Nat)
deriving DecidableEq

/-- Source `generate_headline_local_llm`.  The `try` block re-raises on
an empty (after `strip`) response text; every failure returns
`template_fallback`.  On success: first line only, surrounding quote
characters stripped (`"` = 34 then `'` = 39), word-count cap, username
case restoration, whitespace collapse, title casing. -/
def generate_headline_local_llm (username message : List Nat)
    (b : BackendBehavior) : List Nat :=
  match b with
  | .failure => template_fallback username message
  | .response raw =>
    let text := pyStrip raw
    if text = [] then template_fallback username message
    else
      let headline0 := pyStrip (text.takeWhile (fun c => !(c == 10)))
      let headline1 := stripChar 39 (stripChar 34 headline0)
      let words := splitWs headline1
      let headline2 :=
        if HEADLINE_MAX_WORDS < words.length then joinSp (words.take HEADLINE_MAX_WORDS)
        else headline1
      let headline3 :=
        if lowerL username <:+: lowerL headline2 then ciReplace username headline2
        else headline2
      smart_title (collapseWs headline3)

/-! ### The HeadlineStore (source lines 37-53) and the bot handler -/

/-- Configured history capacity. -/
def MAX_HEADLINES : Nat := 100

/-- The module state: the `headlines` deque (most recent first) and
`_update_counter`. -/
structure TickerState where
  headlines : List (List Nat)
  update_counter : Nat
deriving DecidableEq

/-- The state at process start: empty deque, counter 0. -/
def initialState : TickerState := { headlines := [], update_counter := 0 }

/-- Source `mark_updated` (the lock makes it one atomic action). -/
def mark_updated (s : TickerState) : TickerState :=
  { s with update_counter := s.update_counter + 1 }

/-- Source `get_update_counter`. -/
def get_update_counter (s : TickerState) : Nat := s.update_counter

/-- `headlines.appendleft(h)` on a deque with `maxlen=MAX_HEADLINES`:
insert at the front, evicting the oldest (rightmost) entry at
capacity. -/
def appendleftH (h : List Nat) (s : TickerState) : TickerState :=
  { s with headlines := (h :: s.headlines).take MAX_HEADLINES }

/-- The snapshot `api_headlines` builds when no append interleaves:
`{"version": get_update_counter(), "items": list(headlines)}`. -/
def api_headlines (s : TickerState) : Nat × List (List Nat) :=
  (get_update_counter s, s.headlines)

/-- Source `event_message` body, from `cleaned = clean_message(raw)`
on: discard on empty cleaned text, discard when the uniform draw
exceeds the sampling rate, otherwise transform and append.  The
returned flag records whether the Transformer was invoked. -/
def event_message (rate draw : ℚ) (username raw : List Nat)
    (b : BackendBehavior) (s : TickerState) : TickerState × Bool :=
  let cleaned := clean_message raw
  if cleaned = [] then (s, false)
  else if rate < draw then (s, false)
  else
    let h := generate_headline_local_llm username cleaned b
    (mark_updated (appendleftH h s), true)

/-! ### Interleaving semantics for producer appends and reader snapshots

The producer's post-transform tail of `event_message` is two separate
atomic actions on the shared state — `headlines.appendleft(h)` and
`mark_updated()` — and a `GET /api/headlines` reader performs two
separate atomic reads — `get_update_counter()` under the lock, then
`list(headlines)`.  A schedule interleaves them. -/

/-- One atomic producer action. -/
inductive POp where
  | appendleftOp (h : List Nat)
  | markOp
deriving DecidableEq

/-- The producer's action sequence for appending the headlines `hs` in
order: for each, `appendleft` strictly before `mark_updated`. -/
def pOps : List (List Nat) → List POp
  | [] => []
  | h :: hs => POp.appendleftOp h :: POp.markOp :: pOps hs

/-- Effect of one producer action. -/
def applyP : POp → TickerState → TickerState
  | .appendleftOp h, s => appendleftH h s
  | .markOp, s => mark_updated s

/-- A reader's progress through its two reads of `api_headlines`. -/
structure ReaderState where
  ver : Option Nat
  items : Option (List (List Nat))
deriving DecidableEq

/-- The reader before its first read. -/
def readerStart : ReaderState := { ver := none, items := none }

/-- One reader step: first read takes `get_update_counter()`, second
takes `list(headlines)`, in the order `api_headlines` evaluates them. -/
def applyR (s : TickerState) (r : ReaderState) : ReaderState :=
  match r.ver, r.items with
  | none, _ => { ver := some (get_update_counter s), items := r.items }
  | some _, none => { ver := r.ver, items := some s.headlines }
  | some _, some _ => r

/-- Run a schedule: `true` executes the producer's next action (if
any), `false` executes the reader's next read. -/
def runSched : List Bool → List POp → TickerState → ReaderState →
    TickerState × ReaderState
  | [], _, s, r => (s, r)
  | true :: sch, [], s, r => runSched sch [] s r
  | true :: sch, op :: ops, s, r => runSched sch ops (applyP op s) r
  | false :: sch, ops, s, r => runSched sch ops s (applyR s r)

/-! ### The Sanitizer's reference definition (spec §4.1, §8)

Modelled from the spec's words, for comparison with the source's
`clean_message`: remove every substring matching the URL pattern
(`scheme://non-whitespace-run`, the schemes being `http(s)` per §8),
collapse every whitespace run to a single space and trim the ends
(equivalently: join the whitespace-delimited tokens with single
spaces), yield the empty string for empty or whitespace-only input,
and truncate to exactly 300 characters plus one ellipsis marker when
the cleaned form exceeds 300. -/
def spec_sanitize (msg : List Nat) : List Nat :=
  let cleaned := joinSp (splitWs (stripUrls msg))
  if 300 < cleaned.length then cleaned.take 300 ++ [8230] else cleaned

/-! ## Lemmas: character classes -/

theorem isWs_eq_false_of_ge (c : Nat) (h : 33 ≤ c) : isWs c = false := by
  simp only [isWs, Bool.or_eq_false_iff, beq_eq_false_iff_ne, ne_eq]
  omega

theorem isWs_upChar (c : Nat) : isWs (upChar c) = isWs c := by
  unfold upChar
  split
  · next h => rw [isWs_eq_false_of_ge c (by omega), isWs_eq_false_of_ge _ (by omega)]
  · rfl

theorem upChar_upChar (c : Nat) : upChar (upChar c) = upChar c := by
  unfold upChar
  split
  · next h => rw [if_neg (by omega)]
  · rfl

theorem isWs_lowChar (c : Nat) : isWs (lowChar c) = isWs c := by
  unfold lowChar
  split
  · next h => rw [isWs_eq_false_of_ge c (by omega), isWs_eq_false_of_ge _ (by omega)]
  · rfl

theorem isWs_eq_of_lowChar_eq {a b : Nat} (h : lowChar a = lowChar b) :
    isWs a = isWs b := by
  rw [← isWs_lowChar a, ← isWs_lowChar b, h]

/-! ## Lemmas: `splitWs` -/

theorem splitWs_cons_ws {c : Nat} (cs : List Nat) (h : isWs c = true) :
    splitWs (c :: cs) = splitWs cs := by
  simp [splitWs, h]

theorem splitWs_singleton {c : Nat} (h : isWs c = false) : splitWs [c] = [[c]] := by
  simp [splitWs, h]

theorem splitWs_cons_cons_ws {c d : Nat} (cs : List Nat) (hc : isWs c = false)
    (hd : isWs d = true) : splitWs (c :: d :: cs) = [c] :: splitWs (d :: cs) := by
  simp [splitWs, hc, hd]

theorem splitWs_cons_cons_eq {c d : Nat} (cs : List Nat) (hc : isWs c = false)
    (hd : isWs d = false) :
    splitWs (c :: d :: cs) =
      match splitWs (d :: cs) with
      | [] => [[c]]
      | t :: ts => (c :: t) :: ts := by
  conv_lhs => rw [splitWs.eq_def]
  simp only [hc, hd, Bool.false_eq_true, if_false]

theorem splitWs_ne_nil {c : Nat} (cs : List Nat) (hc : isWs c = false) :
    splitWs (c :: cs) ≠ [] := by
  match cs with
  | [] => simp [splitWs, hc]
  | d :: cs' =>
    by_cases hd : isWs d
    · simp [splitWs, hc, hd]
    · rw [Bool.not_eq_true] at hd
      rw [splitWs_cons_cons_eq cs' hc hd]
      cases splitWs (d :: cs') <;> simp

theorem splitWs_cons_cons {c d : Nat} (cs : List Nat) (hc : isWs c = false)
    (hd : isWs d = false) :
    ∃ t ts, splitWs (d :: cs) = t :: ts ∧ splitWs (c :: d :: cs) = (c :: t) :: ts := by
  cases h : splitWs (d :: cs) with
  | nil => exact absurd h (splitWs_ne_nil cs hd)
  | cons t ts =>
    refine ⟨t, ts, rfl, ?_⟩
    rw [splitWs_cons_cons_eq cs hc hd, h]

theorem splitWs_dropWhile (l : List Nat) :
    splitWs (l.dropWhile isWs) = splitWs l := by
  induction l with
  | nil => rfl
  | cons c cs ih =>
    rw [List.dropWhile_cons]
    by_cases hc : isWs c
    · rw [if_pos hc, ih, splitWs_cons_ws cs hc]
    · rw [if_neg hc]

theorem splitWs_valid (l : List Nat) :
    ∀ w ∈ splitWs l, w ≠ [] ∧ ∀ c ∈ w, isWs c = false := by
  induction l with
  | nil => simp [splitWs]
  | cons c cs ih =>
    by_cases hc : isWs c
    · rw [splitWs_cons_ws cs hc]; exact ih
    · rw [Bool.not_eq_true] at hc
      match cs with
      | [] =>
        rw [splitWs_singleton hc]
        simp [hc]
      | d :: cs' =>
        by_cases hd : isWs d
        · rw [splitWs_cons_cons_ws cs' hc hd]
          intro w hw
          rcases List.mem_cons.mp hw with hw | hw
          · subst hw; simp [hc]
          · exact ih w hw
        · rw [Bool.not_eq_true] at hd
          obtain ⟨t, ts, h1, h2⟩ := splitWs_cons_cons cs' hc hd
          rw [h2]
          intro w hw
          rcases List.mem_cons.mp hw with hw | hw
          · subst hw
            have ht := ih t (by rw [h1]; exact List.mem_cons_self t ts)
            refine ⟨by simp, ?_⟩
            intro x hx
            rcases List.mem_cons.mp hx with hx | hx
            · subst hx; exact hc
            · exact ht.2 x hx
          · exact ih w (by rw [h1]; exact List.mem_cons_of_mem t hw)

theorem splitWs_append_ws {c : Nat} (hc : isWs c = true) (xs ys : List Nat) :
    splitWs (xs ++ c :: ys) = splitWs xs ++ splitWs ys := by
  induction xs with
  | nil => rw [List.nil_append, splitWs_cons_ws ys hc]; rfl
  | cons x xs' ih =>
    by_cases hx : isWs x
    · rw [List.cons_append, splitWs_cons_ws _ hx, splitWs_cons_ws xs' hx, ih]
    · rw [Bool.not_eq_true] at hx
      match xs' with
      | [] =>
        rw [List.cons_append, List.nil_append, splitWs_cons_cons_ws ys hx hc,
          splitWs_cons_ws ys hc, splitWs_singleton hx, List.singleton_append]
      | d :: xs'' =>
        by_cases hd : isWs d
        · rw [List.cons_append, List.cons_append,
            splitWs_cons_cons_ws (xs'' ++ c :: ys) hx hd,
            splitWs_cons_cons_ws xs'' hx hd, ← List.cons_append, ih,
            List.cons_append]
        · rw [Bool.not_eq_true] at hd
          obtain ⟨t, ts, h1, h2⟩ := splitWs_cons_cons xs'' hx hd
          obtain ⟨t', ts', h1', h2'⟩ :=
            splitWs_cons_cons (xs'' ++ c :: ys) hx hd
          rw [List.cons_append, List.cons_append, h2', h2, List.cons_append]
          have hmid : t' :: ts' = t :: (ts ++ splitWs ys) := by
            rw [← h1', ← List.cons_append, ih, h1, List.cons_append]
          cases hmid
          rfl

/-! ## Lemmas: `joinSp` -/

theorem joinSp_cons (t : List Nat) (u : List Nat) (ts : List (List Nat)) :
    joinSp (t :: u :: ts) = t ++ 32 :: joinSp (u :: ts) := rfl

theorem joinSp_cons_head (c : Nat) (t : List Nat) (ts : List (List Nat)) :
    joinSp ((c :: t) :: ts) = c :: joinSp (t :: ts) := by
  cases ts with
  | nil => rfl
  | cons u ts' => rw [joinSp_cons, joinSp_cons, List.cons_append]

theorem joinSp_ne_nil {t : List Nat} (ts : List (List Nat)) (ht : t ≠ []) :
    joinSp (t :: ts) ≠ [] := by
  cases ts with
  | nil => exact ht
  | cons u ts' =>
    rw [joinSp_cons]
    cases t with
    | nil => exact absurd rfl ht
    | cons c cs => simp

theorem joinSp_append {A B : List (List Nat)} (hA : A ≠ []) (hB : B ≠ []) :
    joinSp (A ++ B) = joinSp A ++ 32 :: joinSp B := by
  induction A with
  | nil => exact absurd rfl hA
  | cons t A' ih =>
    cases A' with
    | nil =>
      cases B with
      | nil => exact absurd rfl hB
      | cons u B' => rw [List.singleton_append, joinSp_cons]; rfl
    | cons u A'' =>
      rw [List.cons_append, List.cons_append, joinSp_cons, ← List.cons_append,
        ih (by simp), joinSp_cons, List.append_assoc, List.cons_append]

theorem joinSp_middle (X Y Z : List (List Nat)) :
    ∃ s t, joinSp (X ++ Y ++ Z) = s ++ joinSp Y ++ t := by
  by_cases hY : Y = []
  · subst hY
    exact ⟨joinSp (X ++ Z), [], by simp [joinSp]⟩
  by_cases hX : X = []
  · subst hX
    by_cases hZ : Z = []
    · subst hZ; exact ⟨[], [], by simp⟩
    · refine ⟨[], 32 :: joinSp Z, ?_⟩
      rw [List.nil_append, List.nil_append, joinSp_append hY hZ]
  · by_cases hZ : Z = []
    · subst hZ
      refine ⟨joinSp X ++ [32], [], ?_⟩
      rw [List.append_nil, joinSp_append hX hY]
      simp
    · refine ⟨joinSp X ++ [32], 32 :: joinSp Z, ?_⟩
      rw [List.append_assoc, joinSp_append hX (by simp [hY]),
        joinSp_append hY hZ]
      simp

theorem splitWs_token {t : List Nat} (hne : t ≠ [])
    (hall : ∀ c ∈ t, isWs c = false) : splitWs t = [t] := by
  induction t with
  | nil => exact absurd rfl hne
  | cons c cs ihc =>
    have hc : isWs c = false := hall c (List.mem_cons_self c cs)
    cases cs with
    | nil => exact splitWs_singleton hc
    | cons d cs' =>
      have hd : isWs d = false :=
        hall d (List.mem_cons_of_mem c (List.mem_cons_self d cs'))
      obtain ⟨t', ts'', h1, h2⟩ := splitWs_cons_cons cs' hc hd
      have hrec : splitWs (d :: cs') = [d :: cs'] := by
        apply ihc (by simp)
        intro x hx
        exact hall x (List.mem_cons_of_mem c hx)
      rw [hrec] at h1
      cases h1
      rw [h2]

theorem splitWs_joinSp (ts : List (List Nat))
    (h : ∀ w ∈ ts, w ≠ [] ∧ ∀ c ∈ w, isWs c = false) :
    splitWs (joinSp ts) = ts := by
  induction ts with
  | nil => rfl
  | cons t ts' ih =>
    have ht := h t (List.mem_cons_self t ts')
    have hsingle : splitWs t = [t] := splitWs_token ht.1 ht.2
    cases ts' with
    | nil => exact hsingle
    | cons u ts'' =>
      rw [joinSp_cons, splitWs_append_ws (show isWs 32 = true from rfl),
        hsingle, ih (fun w hw => h w (List.mem_cons_of_mem t hw))]
      rfl

/-! ## Lemmas: `collapseWs` and stripping -/

theorem dropWhile_length_le (p : Nat → Bool) (l : List Nat) :
    (l.dropWhile p).length ≤ l.length := by
  induction l with
  | nil => simp
  | cons c cs ih =>
    rw [List.dropWhile_cons]
    split
    · exact Nat.le_succ_of_le ih
    · exact Nat.le_refl _

/-- Head whitespace test (false on the empty list). -/
def isWsHead : List Nat → Bool
  | [] => false
  | c :: _ => isWs c

theorem collapseWs_cons_nonws {c : Nat} (cs : List Nat) (hc : isWs c = false) :
    collapseWs (c :: cs) = c :: collapseWs cs := by
  cases cs with
  | nil => simp [collapseWs, hc]
  | cons d cs' => simp [collapseWs, hc]

theorem collapseWs_cons_ws {c : Nat} (cs : List Nat) (hc : isWs c = true) :
    collapseWs (c :: cs) =
      if cs.dropWhile isWs = [] then [32]
      else 32 :: collapseWs (cs.dropWhile isWs) := by
  induction cs generalizing c with
  | nil => simp [collapseWs, hc]
  | cons e cs' ih =>
    by_cases he : isWs e
    · have h1 : collapseWs (c :: e :: cs') = collapseWs (e :: cs') := by
        simp [collapseWs, hc, he]
      rw [h1, ih he, List.dropWhile_cons, if_pos he]
    · rw [Bool.not_eq_true] at he
      have h1 : collapseWs (c :: e :: cs') = 32 :: collapseWs (e :: cs') := by
        simp [collapseWs, hc, he]
      rw [h1, List.dropWhile_cons, he]
      simp

theorem isWsHead_collapseWs (l : List Nat) :
    isWsHead (collapseWs l) = isWsHead l := by
  cases l with
  | nil => rfl
  | cons c cs =>
    by_cases hc : isWs c
    · rw [collapseWs_cons_ws cs hc]
      split <;> simp [isWsHead, hc] <;> rfl
    · rw [Bool.not_eq_true] at hc
      rw [collapseWs_cons_nonws cs hc]
      simp [isWsHead]

theorem collapseWs_ne_nil {l : List Nat} (h : l ≠ []) : collapseWs l ≠ [] := by
  cases l with
  | nil => exact absurd rfl h
  | cons c cs =>
    by_cases hc : isWs c
    · rw [collapseWs_cons_ws cs hc]
      split <;> simp
    · rw [Bool.not_eq_true] at hc
      rw [collapseWs_cons_nonws cs hc]
      simp

theorem splitWs_collapseWs (l : List Nat) :
    splitWs (collapseWs l) = splitWs l := by
  induction l with
  | nil => rfl
  | cons c cs ih =>
    by_cases hc : isWs c
    · rw [splitWs_cons_ws cs hc]
      cases cs with
      | nil =>
        have h1 : collapseWs [c] = [32] := by simp [collapseWs, hc]
        rw [h1, splitWs_cons_ws [] (show isWs 32 = true from rfl)]
      | cons d cs' =>
        by_cases hd : isWs d
        · have h1 : collapseWs (c :: d :: cs') = collapseWs (d :: cs') := by
            simp [collapseWs, hc, hd]
          rw [h1, ih]
        · have h1 : collapseWs (c :: d :: cs') = 32 :: collapseWs (d :: cs') := by
            simp [collapseWs, hc, hd]
          rw [h1, splitWs_cons_ws _ (show isWs 32 = true from rfl), ih]
    · rw [Bool.not_eq_true] at hc
      rw [collapseWs_cons_nonws cs hc]
      cases cs with
      | nil => rfl
      | cons d cs' =>
        by_cases hd : isWs d
        · obtain ⟨e, Y, hcol⟩ :
              ∃ e Y, collapseWs (d :: cs') = e :: Y ∧ isWs e = true := by
            have h1 := collapseWs_ne_nil (l := d :: cs') (by simp)
            have h2 := isWsHead_collapseWs (d :: cs')
            cases hcc : collapseWs (d :: cs') with
            | nil => exact absurd hcc h1
            | cons e Y =>
              refine ⟨e, Y, rfl, ?_⟩
              rw [hcc] at h2
              simpa [isWsHead, hd] using h2
          rw [hcol.1, splitWs_cons_cons_ws Y hc hcol.2, ← hcol.1, ih,
            splitWs_cons_cons_ws cs' hc hd]
        · rw [Bool.not_eq_true] at hd
          obtain ⟨Z, hcol⟩ : ∃ Z, collapseWs (d :: cs') = d :: Z :=
            ⟨collapseWs cs', collapseWs_cons_nonws cs' hd⟩
          obtain ⟨t1, ts1, e1, e2⟩ := splitWs_cons_cons Z hc hd
          obtain ⟨t2, ts2, f1, f2⟩ := splitWs_cons_cons cs' hc hd
          rw [hcol, e2, f2]
          have : t1 :: ts1 = t2 :: ts2 := by
            rw [← e1, ← f1, ← hcol, ih]
          cases this
          rfl

theorem dropWhile_append_of_ne {p : Nat → Bool} {a : List Nat} (b : List Nat)
    (h : a.dropWhile p ≠ []) :
    (a ++ b).dropWhile p = a.dropWhile p ++ b := by
  rw [List.dropWhile_append, if_neg]
  simpa using h

theorem lstripWs_of_head {x : List Nat} (h : isWsHead x = false) :
    lstripWs x = x := by
  cases x with
  | nil => rfl
  | cons c cs =>
    simp only [isWsHead] at h
    rw [lstripWs, List.dropWhile_cons, if_neg (by simp [h])]

theorem isWsHead_dropWhile (l : List Nat) :
    isWsHead (l.dropWhile isWs) = false := by
  induction l with
  | nil => rfl
  | cons c cs ih =>
    rw [List.dropWhile_cons]
    by_cases hc : isWs c
    · rw [if_pos hc]; exact ih
    · rw [if_neg hc, Bool.not_eq_true] at *
      simpa [isWsHead] using hc

theorem rstripWs_ne_nil_iff {l : List Nat} :
    rstripWs l ≠ [] ↔ l.reverse.dropWhile isWs ≠ [] := by
  unfold rstripWs
  constructor
  · intro h hcontra
    exact h (by rw [hcontra]; rfl)
  · intro h hcontra
    exact h (by simpa using congrArg List.reverse hcontra)

theorem rstripWs_append {A Y : List Nat} (h : rstripWs Y ≠ []) :
    rstripWs (A ++ Y) = A ++ rstripWs Y := by
  unfold rstripWs
  rw [List.reverse_append, dropWhile_append_of_ne _ (rstripWs_ne_nil_iff.mp h),
    List.reverse_append, List.reverse_reverse]

theorem lstripWs_collapseWs (l : List Nat) :
    lstripWs (collapseWs l) = collapseWs (lstripWs l) := by
  cases l with
  | nil => rfl
  | cons c cs =>
    by_cases hc : isWs c
    · have hl : lstripWs (c :: cs) = lstripWs cs := by
        rw [lstripWs, List.dropWhile_cons, if_pos hc]; rfl
      rw [collapseWs_cons_ws cs hc, hl]
      split
      next hz =>
        rw [show lstripWs cs = [] from hz]
        rw [show lstripWs [32] = [] from rfl]
        rfl
      next hz =>
        have h1 : lstripWs (32 :: collapseWs (cs.dropWhile isWs)) =
            lstripWs (collapseWs (cs.dropWhile isWs)) := by
          rw [lstripWs, List.dropWhile_cons, if_pos (show isWs 32 = true from rfl)]
          rfl
        rw [h1, lstripWs_of_head, lstripWs]
        rw [isWsHead_collapseWs]
        exact isWsHead_dropWhile cs
    · rw [Bool.not_eq_true] at hc
      rw [collapseWs_cons_nonws cs hc,
        lstripWs_of_head (show isWsHead (c :: collapseWs cs) = false from hc),
        lstripWs_of_head (show isWsHead (c :: cs) = false from hc),
        collapseWs_cons_nonws cs hc]

theorem rstripWs_collapseWs :
    ∀ (n : Nat) (x : List Nat), x.length ≤ n → isWsHead x = false →
      rstripWs (collapseWs x) = joinSp (splitWs x)
  | _, [], _, _ => rfl
  | 0, c :: cs, hlen, _ => absurd hlen (by simp)
  | n + 1, c :: cs, hlen, hhead => by
    have hc : isWs c = false := hhead
    have hcs : cs.length ≤ n := by simpa using hlen
    cases cs with
    | nil =>
      have h1 : collapseWs [c] = [c] := by simp [collapseWs, hc]
      rw [h1, splitWs_singleton hc]
      show (List.dropWhile isWs [c]).reverse = joinSp [[c]]
      rw [List.dropWhile_cons, if_neg (by simp [hc])]
      rfl
    | cons d cs' =>
      rw [collapseWs_cons_nonws _ hc]
      by_cases hd : isWs d
      · rw [collapseWs_cons_ws cs' hd]
        have hsplit : splitWs (c :: d :: cs') = [c] :: splitWs (cs'.dropWhile isWs) := by
          rw [splitWs_cons_cons_ws cs' hc hd, splitWs_cons_ws cs' hd,
            splitWs_dropWhile]
        split
        next hz =>
          have hsplit2 : splitWs (cs'.dropWhile isWs) = [] := by rw [hz]; rfl
          rw [hsplit, hsplit2]
          show (List.dropWhile isWs (32 :: [c])).reverse = joinSp [[c]]
          rw [List.dropWhile_cons, if_pos (show isWs 32 = true from rfl),
            List.dropWhile_cons, if_neg (by simp [hc])]
          rfl
        next hz =>
          obtain ⟨e, z', hze⟩ : ∃ e z', cs'.dropWhile isWs = e :: z' := by
            cases hq : cs'.dropWhile isWs with
            | nil => exact absurd hq hz
            | cons e z' => exact ⟨e, z', rfl⟩
          have hzlen : (e :: z').length ≤ n := by
            have h3 := dropWhile_length_le isWs cs'
            rw [hze] at h3
            simp only [List.length_cons] at hcs h3 ⊢
            omega
          have hzhead : isWs e = false := by
            have h4 := isWsHead_dropWhile cs'
            rw [hze] at h4
            exact h4
          have hIH := rstripWs_collapseWs n (e :: z') hzlen hzhead
          obtain ⟨t, ts, h1⟩ : ∃ t ts, splitWs (e :: z') = t :: ts := by
            cases hsp : splitWs (e :: z') with
            | nil => exact absurd hsp (splitWs_ne_nil z' hzhead)
            | cons t ts => exact ⟨t, ts, rfl⟩
          have htne : t ≠ [] :=
            (splitWs_valid (e :: z') t (by rw [h1]; exact List.mem_cons_self t ts)).1
          have hne : rstripWs (collapseWs (e :: z')) ≠ [] := by
            rw [hIH, h1]
            exact joinSp_ne_nil ts htne
          rw [hze]
          have hA : c :: 32 :: collapseWs (e :: z') = [c, 32] ++ collapseWs (e :: z') := rfl
          rw [hA, rstripWs_append hne, hIH, hsplit, hze, h1, joinSp_cons]
          rfl
      · rw [Bool.not_eq_true] at hd
        have hIH := rstripWs_collapseWs n (d :: cs') hcs hd
        obtain ⟨t, ts, h1, h2⟩ := splitWs_cons_cons cs' hc hd
        have hne : rstripWs (collapseWs (d :: cs')) ≠ [] := by
          rw [hIH, h1]
          exact joinSp_ne_nil ts
            ((splitWs_valid (d :: cs') t (by rw [h1]; exact List.mem_cons_self t ts)).1)
        have hA : c :: collapseWs (d :: cs') = [c] ++ collapseWs (d :: cs') := rfl
        rw [hA, rstripWs_append hne, hIH, h2, h1, joinSp_cons_head]
        rfl

theorem pyStrip_collapseWs (l : List Nat) :
    pyStrip (collapseWs l) = joinSp (splitWs l) := by
  show rstripWs (lstripWs (collapseWs l)) = joinSp (splitWs l)
  rw [lstripWs_collapseWs,
    rstripWs_collapseWs (lstripWs l).length (lstripWs l) (Nat.le_refl _)
      (isWsHead_dropWhile l)]
  rw [show splitWs (lstripWs l) = splitWs l from splitWs_dropWhile l]

/-! ## Lemmas: `fixWord` and `smart_title` -/

theorem fixWord_valid {w : List Nat} (hne : w ≠ [])
    (hall : ∀ c ∈ w, isWs c = false) :
    fixWord w ≠ [] ∧ ∀ c ∈ fixWord w, isWs c = false := by
  unfold fixWord
  split
  · exact ⟨hne, hall⟩
  · cases w with
    | nil => exact absurd rfl hne
    | cons c cs =>
      refine ⟨by simp, ?_⟩
      intro x hx
      rcases List.mem_cons.mp hx with hx | hx
      · subst hx
        rw [isWs_upChar]
        exact hall c (List.mem_cons_self c cs)
      · exact hall x (List.mem_cons_of_mem c hx)

theorem splitWs_smart_title (s : List Nat) :
    splitWs (smart_title s) = (splitWs s).map fixWord := by
  unfold smart_title
  apply splitWs_joinSp
  intro w hw
  obtain ⟨v, hv, rfl⟩ := List.mem_map.mp hw
  have := splitWs_valid s v hv
  exact fixWord_valid this.1 this.2

theorem fixWord_fixWord (w : List Nat) : fixWord (fixWord w) = fixWord w := by
  by_cases hu : pyIsUpper w
  · have h : fixWord w = w := by unfold fixWord; rw [if_pos hu]
    rw [h]
    exact h
  · rw [Bool.not_eq_true] at hu
    cases w with
    | nil => rfl
    | cons c cs =>
      have hw : fixWord (c :: cs) = upChar c :: cs := by
        unfold fixWord
        rw [if_neg (by simp [hu])]
      rw [hw]
      by_cases hv : pyIsUpper (upChar c :: cs)
      · unfold fixWord
        rw [if_pos hv]
      · have hv2 : fixWord (upChar c :: cs) = upChar (upChar c) :: cs := by
          unfold fixWord
          rw [if_neg hv]
        rw [hv2, upChar_upChar]

theorem smart_title_idem (s : List Nat) :
    smart_title (smart_title s) = smart_title s := by
  conv_lhs => rw [smart_title, splitWs_smart_title]
  rw [smart_title, List.map_map]
  congr 1
  apply List.map_congr_left
  intro w _
  exact fixWord_fixWord w

theorem length_splitWs_smart_title (s : List Nat) :
    (splitWs (smart_title s)).length = (splitWs s).length := by
  rw [splitWs_smart_title, List.length_map]

/-! ## Lemmas: token count depends only on the whitespace mask -/

theorem splitWs_length_congr :
    ∀ {l l' : List Nat}, l.map isWs = l'.map isWs →
      (splitWs l).length = (splitWs l').length := by
  intro l
  induction l with
  | nil =>
    intro l' h
    cases l' with
    | nil => rfl
    | cons => simp at h
  | cons c cs ih =>
    intro l' h
    cases l' with
    | nil => simp at h
    | cons c' cs' =>
      simp only [List.map_cons, List.cons.injEq] at h
      obtain ⟨hcc, hcs⟩ := h
      by_cases hc : isWs c
      · have hc' : isWs c' = true := by rw [← hcc]; exact hc
        rw [splitWs_cons_ws cs hc, splitWs_cons_ws cs' hc']
        exact ih hcs
      · rw [Bool.not_eq_true] at hc
        have hc' : isWs c' = false := by rw [← hcc]; exact hc
        cases cs with
        | nil =>
          cases cs' with
          | nil => rw [splitWs_singleton hc, splitWs_singleton hc']; rfl
          | cons => simp at hcs
        | cons d ds =>
          cases cs' with
          | nil => simp at hcs
          | cons d' ds' =>
            have hdd : isWs d = isWs d' := by
              simp only [List.map_cons, List.cons.injEq] at hcs
              exact hcs.1
            by_cases hd : isWs d
            · have hd' : isWs d' = true := by rw [← hdd]; exact hd
              rw [splitWs_cons_cons_ws ds hc hd,
                splitWs_cons_cons_ws ds' hc' hd',
                List.length_cons, List.length_cons, ih hcs]
            · rw [Bool.not_eq_true] at hd
              have hd' : isWs d' = false := by rw [← hdd]; exact hd
              obtain ⟨t, ts, h1, h2⟩ := splitWs_cons_cons ds hc hd
              obtain ⟨t', ts', h1', h2'⟩ := splitWs_cons_cons ds' hc' hd'
              have hlen := ih hcs
              rw [h1, h1'] at hlen
              rw [h2, h2']
              simpa using hlen

/-! ## Lemmas: the username-restoring replacement -/

theorem matchesCI_ws_map :
    ∀ {u l : List Nat}, matchesCI u l = true →
      u.length ≤ l.length ∧ (l.take u.length).map isWs = u.map isWs := by
  intro u
  induction u with
  | nil => intro l _; simp
  | cons p ps ih =>
    intro l h
    cases l with
    | nil => simp [matchesCI] at h
    | cons t ts =>
      simp only [matchesCI, Bool.and_eq_true, beq_iff_eq] at h
      obtain ⟨hpt, hrest⟩ := h
      obtain ⟨hlen, hmap⟩ := ih hrest
      refine ⟨by simpa using hlen, ?_⟩
      simp only [List.length_cons, List.take_succ_cons, List.map_cons, hmap,
        List.cons.injEq, and_true]
      exact (isWs_eq_of_lowChar_eq hpt).symm

theorem ciReplaceF_ws_map (u : List Nat) :
    ∀ (fuel : Nat) (l : List Nat),
      (ciReplaceF u fuel l).map isWs = l.map isWs := by
  intro fuel
  induction fuel with
  | zero => intro l; cases l <;> rfl
  | succ n ih =>
    intro l
    cases l with
    | nil => rfl
    | cons c cs =>
      by_cases hu : u.isEmpty
      · simp [ciReplaceF, hu]
      · by_cases hm : matchesCI u (c :: cs)
        · have heq : ciReplaceF u (n + 1) (c :: cs) =
              u ++ ciReplaceF u n (cs.drop (u.length - 1)) := by
            rw [ciReplaceF, if_neg (by simp [hu]), if_pos hm]
          rw [heq, List.map_append, ih]
          obtain ⟨hlen, htake⟩ := matchesCI_ws_map hm
          cases u with
          | nil => simp [List.isEmpty_nil] at hu
          | cons p ps =>
            have hdrop : cs.drop ((p :: ps).length - 1) = (c :: cs).drop (p :: ps).length := by
              simp
            rw [hdrop, ← htake, ← List.map_append, List.take_append_drop]
        · have heq : ciReplaceF u (n + 1) (c :: cs) = c :: ciReplaceF u n cs := by
            rw [ciReplaceF, if_neg (by simp [hu]), if_neg (by simp [hm])]
          rw [heq, List.map_cons, List.map_cons, ih]

theorem splitWs_length_ciReplace (u l : List Nat) :
    (splitWs (ciReplace u l)).length = (splitWs l).length :=
  splitWs_length_congr (ciReplaceF_ws_map u l.length l)

/-! ## Lemmas: the fallback always renders the first template -/

theorem template_fallback_eq (u m : List Nat) :
    template_fallback u m =
      smart_title (strL ("BREAKING: ") ++ u ++ strL (" Stuns The Internet — ") ++ m) := by
  have e1 : (strL ("BREAKING: ") ++ u ++ strL (" Stuns The Internet — ") ++ m).length
      = u.length + m.length + 32 := by
    simp only [List.length_append,
      show (strL ("BREAKING: ")).length = 10 from rfl,
      show (strL (" Stuns The Internet — ")).length = 22 from rfl]
    omega
  have e2 : (strL ("ALERT: ") ++ u ++ strL (" Sparks Frenzy — ") ++ m).length
      = u.length + m.length + 24 := by
    simp only [List.length_append,
      show (strL ("ALERT: ")).length = 7 from rfl,
      show (strL (" Sparks Frenzy — ")).length = 17 from rfl]
    omega
  have e3 : (strL ("LIVE NOW: ") ++ u ++ strL (" Shocks Chat — ") ++ m).length
      = u.length + m.length + 25 := by
    simp only [List.length_append,
      show (strL ("LIVE NOW: ")).length = 10 from rfl,
      show (strL (" Shocks Chat — ")).length = 15 from rfl]
    omega
  have e4 : (strL ("HEADS UP: ") ++ u ++ strL (" Just Dropped This — ") ++ m).length
      = u.length + m.length + 31 := by
    simp only [List.length_append,
      show (strL ("HEADS UP: ")).length = 10 from rfl,
      show (strL (" Just Dropped This — ")).length = 21 from rfl]
    omega
  show smart_title
      (maxByLen (strL ("BREAKING: ") ++ u ++ strL (" Stuns The Internet — ") ++ m)
        [ strL ("ALERT: ") ++ u ++ strL (" Sparks Frenzy — ") ++ m
        , strL ("LIVE NOW: ") ++ u ++ strL (" Shocks Chat — ") ++ m
        , strL ("HEADS UP: ") ++ u ++ strL (" Just Dropped This — ") ++ m ]) = _
  unfold maxByLen
  rw [List.foldl_cons, if_neg (by rw [e1, e2]; omega),
    List.foldl_cons, if_neg (by rw [e1, e3]; omega),
    List.foldl_cons, if_neg (by rw [e1, e4]; omega),
    List.foldl_nil]

/-! ## Lemmas: token decomposition of the first fallback template -/

theorem splitWs_breaking (u m : List Nat) :
    splitWs (strL ("BREAKING: ") ++ u ++ strL (" Stuns The Internet — ") ++ m) =
      [strL ("BREAKING:")] ++ splitWs u ++
        [strL ("Stuns"), strL ("The"), strL ("Internet"), strL ("—")] ++ splitWs m := by
  have c1 : strL ("BREAKING: ") = strL ("BREAKING:") ++ [32] := rfl
  have c2 : strL (" Stuns The Internet — ") =
      32 :: (strL ("Stuns The Internet —") ++ [32]) := rfl
  rw [c1, c2]
  have hassoc :
      (strL ("BREAKING:") ++ [32]) ++ u ++ (32 :: (strL ("Stuns The Internet —") ++ [32])) ++ m
        = strL ("BREAKING:") ++ 32 :: (u ++ 32 :: (strL ("Stuns The Internet —") ++ 32 :: m)) := by
    simp [List.append_assoc]
  rw [hassoc, splitWs_append_ws (show isWs 32 = true from rfl),
    splitWs_append_ws (show isWs 32 = true from rfl),
    splitWs_append_ws (show isWs 32 = true from rfl),
    show splitWs (strL ("BREAKING:")) = [strL ("BREAKING:")] from rfl,
    show splitWs (strL ("Stuns The Internet —")) =
      [strL ("Stuns"), strL ("The"), strL ("Internet"), strL ("—")] from rfl]
  simp [List.append_assoc]

/-! ## Lemmas: the word-count cap of the primary path -/

theorem ciReplace_step_bound (u H : List Nat)
    (h : (splitWs H).length ≤ HEADLINE_MAX_WORDS) :
    (splitWs (if lowerL u <:+: lowerL H then ciReplace u H else H)).length
      ≤ HEADLINE_MAX_WORDS := by
  split
  · rw [splitWs_length_ciReplace]
    exact h
  · exact h

theorem word_cap_bound (B : List Nat) :
    (splitWs (if HEADLINE_MAX_WORDS < (splitWs B).length
        then joinSp ((splitWs B).take HEADLINE_MAX_WORDS) else B)).length
      ≤ HEADLINE_MAX_WORDS := by
  split
  next hlong =>
    rw [splitWs_joinSp]
    · simp [List.length_take]
    · intro w hw
      exact splitWs_valid B w (List.take_subset _ _ hw)
  next hshort => omega

/-! ## Lemmas: the producer loop of `event_message` -/

/-- The post-transform tail of `event_message` when no reader
interleaves: `headlines.appendleft(headline); mark_updated()` (source
lines 166-167). -/
def ingest (s : TickerState) (h : List Nat) : TickerState :=
  mark_updated (appendleftH h s)

theorem ingest_foldl (hs : List (List Nat)) :
    ∀ s : TickerState, s.headlines.length ≤ MAX_HEADLINES →
      (hs.foldl ingest s).update_counter = s.update_counter + hs.length ∧
      (hs.foldl ingest s).headlines.length =
        min (s.headlines.length + hs.length) MAX_HEADLINES := by
  induction hs with
  | nil =>
    intro s hs100
    constructor
    · rfl
    · show s.headlines.length = min (s.headlines.length + 0) MAX_HEADLINES
      omega
  | cons h hs' ih =>
    intro s hs100
    have hlen1 : (ingest s h).headlines.length =
        min (s.headlines.length + 1) MAX_HEADLINES := by
      show ((h :: s.headlines).take MAX_HEADLINES).length = _
      rw [List.length_take]
      simp only [List.length_cons]
      omega
    have hcnt1 : (ingest s h).update_counter = s.update_counter + 1 := rfl
    obtain ⟨hc, hl⟩ := ih (ingest s h) (by rw [hlen1]; omega)
    constructor
    · rw [List.foldl_cons, hc, hcnt1, List.length_cons]
      omega
    · rw [List.foldl_cons, hl, hlen1, List.length_cons]
      omega

/-! ## Lemmas: the interleaving invariant -/

/-- Producer-side invariant of a run: the consumed prefix of `pOps hs`
determines the counter and the history length; between an `appendleft`
and its `mark_updated` the history is one ahead of the counter. -/
def ProdInv (hs : List (List Nat)) (ops : List POp) (s : TickerState) : Prop :=
  (∃ i, i ≤ hs.length ∧ ops = pOps (hs.drop i) ∧ s.update_counter = i ∧
     s.headlines.length = min i MAX_HEADLINES) ∨
  (∃ i, i < hs.length ∧ ops = POp.markOp :: pOps (hs.drop (i + 1)) ∧
     s.update_counter = i ∧ s.headlines.length = min (i + 1) MAX_HEADLINES)

/-- Reader-side invariant: a read version never exceeds the current
counter, and once both reads have happened the item count equals
`min a N` for some append count `a` at least the read version. -/
def ReadInv (hs : List (List Nat)) (s : TickerState) (r : ReaderState) : Prop :=
  (∀ v, r.ver = some v → v ≤ s.update_counter) ∧
  (∀ v its, r.ver = some v → r.items = some its →
     ∃ a, v ≤ a ∧ a ≤ hs.length ∧ its.length = min a MAX_HEADLINES) ∧
  (r.ver = none → r.items = none)

theorem pOps_drop_cons {hs : List (List Nat)} {i : Nat} {h : List Nat}
    {rest : List (List Nat)} (hd : hs.drop i = h :: rest) :
    pOps (hs.drop i) = POp.appendleftOp h :: POp.markOp :: pOps (hs.drop (i + 1)) := by
  rw [hd]
  have : hs.drop (i + 1) = rest := by
    rw [← List.tail_drop, hd]
    rfl
  rw [this]
  rfl

theorem prodInv_step {hs : List (List Nat)} {op : POp} {ops' : List POp}
    {s : TickerState} (hP : ProdInv hs (op :: ops') s) :
    ProdInv hs ops' (applyP op s) ∧
      s.update_counter ≤ (applyP op s).update_counter := by
  rcases hP with ⟨i, hi, hops, hcnt, hlen⟩ | ⟨i, hi, hops, hcnt, hlen⟩
  · cases hd : hs.drop i with
    | nil => rw [hd] at hops; exact absurd hops.symm (by simp [pOps])
    | cons h rest =>
      rw [pOps_drop_cons hd] at hops
      cases hops
      have hilen : i < hs.length := by
        have := congrArg List.length hd
        rw [List.length_drop] at this
        simp only [List.length_cons] at this
        omega
      constructor
      · right
        refine ⟨i, hilen, rfl, hcnt, ?_⟩
        show ((h :: s.headlines).take MAX_HEADLINES).length = _
        rw [List.length_take]
        simp only [List.length_cons]
        omega
      · exact Nat.le_refl _
  · cases hops
    constructor
    · left
      refine ⟨i + 1, by omega, rfl, by simp [applyP, mark_updated, hcnt], ?_⟩
      show s.headlines.length = _
      rw [hlen]
    · exact Nat.le_succ_of_le (Nat.le_refl _)

theorem readInv_pstep {hs : List (List Nat)} {s s' : TickerState}
    {r : ReaderState} (hR : ReadInv hs s r)
    (hmono : s.update_counter ≤ s'.update_counter) : ReadInv hs s' r :=
  ⟨fun v hv => Nat.le_trans (hR.1 v hv) hmono, hR.2.1, hR.2.2⟩

theorem readInv_rstep {hs : List (List Nat)} {ops : List POp} {s : TickerState}
    {r : ReaderState} (hP : ProdInv hs ops s) (hR : ReadInv hs s r) :
    ReadInv hs s (applyR s r) := by
  obtain ⟨h1, h2, h3⟩ := hR
  cases hv : r.ver with
  | none =>
    have hitems : r.items = none := h3 hv
    have happ : applyR s r = { ver := some s.update_counter, items := r.items } := by
      unfold applyR
      rw [hv]
      rfl
    rw [happ]
    refine ⟨?_, ?_, ?_⟩
    · intro v hveq
      cases hveq
      exact Nat.le_refl _
    · intro v its _ hits
      rw [hitems] at hits
      cases hits
    · intro hnone
      cases hnone
  | some v0 =>
    cases hit : r.items with
    | some its0 =>
      have happ : applyR s r = r := by
        unfold applyR
        rw [hv, hit]
      rw [happ]
      exact ⟨h1, h2, h3⟩
    | none =>
      have happ : applyR s r = { ver := r.ver, items := some s.headlines } := by
        unfold applyR
        rw [hv, hit]
      rw [happ]
      refine ⟨fun v hveq => h1 v (by rw [← hveq]), ?_, ?_⟩
      · intro v its hveq hits
        cases hits
        have hvle : v ≤ s.update_counter := h1 v (by rw [← hveq])
        rcases hP with ⟨i, hi, -, hcnt, hlen⟩ | ⟨i, hi, -, hcnt, hlen⟩
        · exact ⟨i, by omega, hi, hlen⟩
        · exact ⟨i + 1, by omega, by omega, hlen⟩
      · intro hnone
        rw [hv] at hnone
        cases hnone

theorem runSched_inv {hs : List (List Nat)} :
    ∀ (sched : List Bool) (ops : List POp) (s : TickerState) (r : ReaderState),
      ProdInv hs ops s → ReadInv hs s r →
      ReadInv hs (runSched sched ops s r).1 (runSched sched ops s r).2 := by
  intro sched
  induction sched with
  | nil => intro ops s r _ hR; exact hR
  | cons b sch ih =>
    intro ops s r hP hR
    cases b with
    | true =>
      cases ops with
      | nil => exact ih [] s r hP hR
      | cons op ops' =>
        obtain ⟨hP', hmono⟩ := prodInv_step hP
        exact ih ops' (applyP op s) r hP' (readInv_pstep hR hmono)
    | false =>
      exact ih ops s (applyR s r) hP (readInv_rstep hP hR)

/-! ## Claim C1 -/

/-- Claim C1, as stated, is false of the code: the lock protects only
the counter, so a reader interleaving between `headlines.appendleft`
and `mark_updated` observes the headline present without the version
bump.  Concretely, with one producer append of `"h"` and the schedule
append-left, read-version, read-items, mark: the reader returns
version 0 with one item, and `1 ≠ min 0 N`. -/
theorem C1_torn_snapshot :
    (runSched [true, false, false, true] (pOps [strL ("h")])
        initialState readerStart).2.ver = some 0 ∧
    (runSched [true, false, false, true] (pOps [strL ("h")])
        initialState readerStart).2.items = some [strL ("h")] ∧
    ¬ (([strL ("h")] : List (List Nat)).length = min 0 MAX_HEADLINES) := by
  refine ⟨by decide, by decide, by decide⟩

/-- Claim C1 (amended): for every interleaving of producer appends and
one reader's two reads, the snapshot the reader assembles satisfies
`items.length = min a N` for some append count `a` with
`version ≤ a ≤` the number of appends issued; hence the reader can
observe at least `min(version, N)` items — never fewer — but it can
observe a version bump's headline before the bump itself. -/
theorem C1_snapshot_consistency (hs : List (List Nat)) (sched : List Bool)
    (v : Nat) (its : List (List Nat))
    (hv : (runSched sched (pOps hs) initialState readerStart).2.ver = some v)
    (hits : (runSched sched (pOps hs) initialState readerStart).2.items = some its) :
    ∃ a, v ≤ a ∧ a ≤ hs.length ∧ its.length = min a MAX_HEADLINES ∧
      min v MAX_HEADLINES ≤ its.length := by
  have hPinit : ProdInv hs (pOps hs) initialState := by
    left
    exact ⟨0, Nat.zero_le _, by rw [List.drop_zero], rfl, by simp [initialState]⟩
  have hRinit : ReadInv hs initialState readerStart := by
    refine ⟨?_, ?_, ?_⟩
    · intro v hv0
      exact absurd hv0 (by simp [readerStart])
    · intro v its hv0 _
      exact absurd hv0 (by simp [readerStart])
    · intro _
      rfl
  have hR := runSched_inv sched (pOps hs) initialState readerStart hPinit hRinit
  obtain ⟨a, hva, hahs, hlen⟩ := hR.2.1 v its hv hits
  exact ⟨a, hva, hahs, hlen, by omega⟩

/-- Witness for the amended C1 at a concrete run: one full append, then
both reads, gives version 1 with one item. -/
theorem C1_snapshot_consistency_witness :
    ∃ a, 1 ≤ a ∧ a ≤ ([strL ("h")] : List (List Nat)).length ∧
      ([strL ("h")] : List (List Nat)).length = min a MAX_HEADLINES ∧
      min 1 MAX_HEADLINES ≤ ([strL ("h")] : List (List Nat)).length :=
  C1_snapshot_consistency [strL ("h")] [true, true, false, false] 1 [strL ("h")]
    (by decide) (by decide)

/-! ## Claim C2 -/

/-- Claim C2: starting from the empty store with version 0, for every
finite sequence of appends (each `appendleft` followed by the counter
increment), the history length never exceeds `N = 100` and the counter
after the `k`-th append equals exactly `k`.  Quantifying over all
sequences covers every intermediate point of any longer sequence. -/
theorem C2_store_invariant (hs : List (List Nat)) :
    (hs.foldl ingest initialState).update_counter = hs.length ∧
    (hs.foldl ingest initialState).headlines.length ≤ MAX_HEADLINES := by
  obtain ⟨hc, hl⟩ := ingest_foldl hs initialState (Nat.zero_le _)
  constructor
  · simpa [initialState] using hc
  · rw [hl]
    omega

/-! ## Claim C3 -/

/-- Claim C3, as stated, is false of the code: the fallback path does
not enforce the word cap.  With author `"a"`, message of nine one-letter
words and the backend down, the fallback headline has 15 whitespace
words, exceeding `HEADLINE_MAX_WORDS = 14`. -/
theorem C3_fallback_exceeds_cap :
    HEADLINE_MAX_WORDS <
      (splitWs (generate_headline_local_llm (strL ("a"))
        (strL ("b b b b b b b b b")) BackendBehavior.failure)).length := by
  decide

/-- Claim C3 (amended): the word cap holds on the primary
(remote-generation) path — for every author, message and successful
non-empty backend response, the returned headline has at most
`HEADLINE_MAX_WORDS` whitespace-delimited words.  (The fallback path
enforces no cap, per the counterexample.) -/
theorem C3_primary_word_cap (u m t : List Nat) (h : pyStrip t ≠ []) :
    (splitWs (generate_headline_local_llm u m (BackendBehavior.response t))).length
      ≤ HEADLINE_MAX_WORDS := by
  simp only [generate_headline_local_llm]
  rw [if_neg h, length_splitWs_smart_title, splitWs_collapseWs]
  exact ciReplace_step_bound u _ (word_cap_bound _)

/-- Witness for the amended C3 at a concrete non-empty response. -/
theorem C3_primary_word_cap_witness :
    pyStrip (strL ("hello world")) ≠ [] ∧
    (splitWs (generate_headline_local_llm (strL ("bob")) (strL ("m"))
        (BackendBehavior.response (strL ("hello world"))))).length
      ≤ HEADLINE_MAX_WORDS :=
  ⟨by decide, C3_primary_word_cap (strL ("bob")) (strL ("m"))
    (strL ("hello world")) (by decide)⟩

/-! ## Claim C4 -/

/-- Claim C4, as stated, is false of the code: `template_fallback`
title-cases its result, so for author `"alice"` the output contains
`"Alice"` but not the author string `"alice"` character for
character. -/
theorem C4_casing_counterexample :
    ¬ (strL ("alice") <:+: template_fallback (strL ("alice")) (strL ("hi"))) := by
  decide

/-- Claim C4 (amended): `template_fallback` is a pure deterministic
function — repeated calls on the same pair return the identical
string — and its output always contains the author and the message
content as transformed by the title-casing rule (`smart_title`), not
character for character. -/
theorem C4_fallback_deterministic_contains (u m : List Nat) :
    template_fallback u m = template_fallback u m ∧
    smart_title u <:+: template_fallback u m ∧
    smart_title m <:+: template_fallback u m := by
  refine ⟨rfl, ?_, ?_⟩
  · rw [template_fallback_eq]
    show joinSp ((splitWs u).map fixWord) <:+:
      joinSp ((splitWs (strL ("BREAKING: ") ++ u ++
        strL (" Stuns The Internet — ") ++ m)).map fixWord)
    rw [splitWs_breaking]
    simp only [List.map_append]
    rw [List.append_assoc (List.map fixWord [strL ("BREAKING:")] ++
      List.map fixWord (splitWs u))]
    obtain ⟨s, t, hst⟩ := joinSp_middle (List.map fixWord [strL ("BREAKING:")])
      (List.map fixWord (splitWs u))
      (List.map fixWord [strL ("Stuns"), strL ("The"), strL ("Internet"), strL ("—")] ++
        List.map fixWord (splitWs m))
    exact ⟨s, t, hst.symm⟩
  · rw [template_fallback_eq]
    show joinSp ((splitWs m).map fixWord) <:+:
      joinSp ((splitWs (strL ("BREAKING: ") ++ u ++
        strL (" Stuns The Internet — ") ++ m)).map fixWord)
    rw [splitWs_breaking]
    simp only [List.map_append]
    obtain ⟨s, t, hst⟩ := joinSp_middle
      (List.map fixWord [strL ("BREAKING:")] ++ List.map fixWord (splitWs u) ++
        List.map fixWord [strL ("Stuns"), strL ("The"), strL ("Internet"), strL ("—")])
      (List.map fixWord (splitWs m)) []
    rw [List.append_nil] at hst
    exact ⟨s, t, hst.symm⟩

/-! ## Claim C5 -/

/-- Claim C5: the Transformer is total — for every author, message and
backend behaviour it returns a string (the embedding is a total
function), and every failure of the primary path (any raised exception,
modelled by `failure`, or an empty-after-strip response text, which the
source re-raises) returns exactly the `template_fallback` output. -/
theorem C5_transform_total_fallback (u m : List Nat) :
    generate_headline_local_llm u m BackendBehavior.failure = template_fallback u m ∧
    ∀ t, pyStrip t = [] →
      generate_headline_local_llm u m (BackendBehavior.response t) =
        template_fallback u m := by
  refine ⟨rfl, ?_⟩
  intro t ht
  simp only [generate_headline_local_llm]
  rw [if_pos ht]

/-- Witness for C5 at a concrete failing response (whitespace-only
body). -/
theorem C5_transform_total_fallback_witness :
    pyStrip (strL ("  ")) = [] ∧
    generate_headline_local_llm (strL ("a")) (strL ("b"))
        (BackendBehavior.response (strL ("  "))) =
      template_fallback (strL ("a")) (strL ("b")) :=
  ⟨by decide, (C5_transform_total_fallback (strL ("a")) (strL ("b"))).2
    (strL ("  ")) (by decide)⟩

/-! ## Claim C6 -/

/-- Claim C6: the Sanitizer equals its reference definition — for every
input, `clean_message` removes the `http(s)://`-scheme URL substrings,
collapses and trims whitespace (equivalently, joins the
whitespace-delimited tokens with single spaces, which yields the empty
string on empty or whitespace-only input), and truncates to exactly
300 characters plus one ellipsis marker (length 301) when the cleaned
form exceeds 300. -/
theorem C6_sanitizer_reference (msg : List Nat) :
    clean_message msg = spec_sanitize msg := by
  by_cases h : msg = []
  · subst h
    rfl
  · simp only [clean_message, spec_sanitize, if_neg h, pyStrip_collapseWs]

/-! ## Claim C7 -/

/-- Claim C7, as stated, is false of the code: `random.random()` can
return exactly 0, and the gate `random.random() > MESSAGE_RATE` does
not discard the draw 0 at rate 0, so the event reaches the Transformer
(and the store) even with sampling rate 0. -/
theorem C7_rate_zero_counterexample :
    (0 : ℚ) ≤ 0 ∧ (0 : ℚ) < 1 ∧
    (event_message 0 0 (strL ("bob")) (strL ("hi"))
        BackendBehavior.failure initialState).2 = true :=
  ⟨le_refl 0, by norm_num, by decide⟩

/-- Claim C7 (amended): with sampling rate 0 every event whose draw is
strictly positive is discarded with no state change (only the
probability-zero draw 0 passes); with sampling rate 1 every event whose
sanitized text is non-empty reaches the Transformer, for every draw in
`[0, 1)`. -/
theorem C7_sampling_gate (draw : ℚ) (u raw : List Nat) (b : BackendBehavior)
    (s : TickerState) :
    (0 < draw → event_message 0 draw u raw b s = (s, false)) ∧
    (0 ≤ draw → draw < 1 → clean_message raw ≠ [] →
      (event_message 1 draw u raw b s).2 = true) := by
  constructor
  · intro hpos
    simp only [event_message]
    by_cases hcl : clean_message raw = []
    · rw [if_pos hcl]
    · rw [if_neg hcl, if_pos hpos]
  · intro _ h1 hcl
    simp only [event_message]
    rw [if_neg hcl, if_neg (show ¬ ((1 : ℚ) < draw) from by linarith)]

/-- Witness for the amended C7 at the draw 1/2. -/
theorem C7_sampling_gate_witness :
    (0 : ℚ) < 1 / 2 ∧ (0 : ℚ) ≤ 1 / 2 ∧ (1 : ℚ) / 2 < 1 ∧
    clean_message (strL ("hi")) ≠ [] ∧
    event_message 0 (1 / 2) (strL ("bob")) (strL ("hi"))
        BackendBehavior.failure initialState = (initialState, false) ∧
    (event_message 1 (1 / 2) (strL ("bob")) (strL ("hi"))
        BackendBehavior.failure initialState).2 = true :=
  ⟨by norm_num, by norm_num, by norm_num, by decide,
    (C7_sampling_gate (1 / 2) (strL ("bob")) (strL ("hi"))
      BackendBehavior.failure initialState).1 (by norm_num),
    (C7_sampling_gate (1 / 2) (strL ("bob")) (strL ("hi"))
      BackendBehavior.failure initialState).2 (by norm_num) (by norm_num)
      (by decide)⟩

/-! ## Claim C8 -/

/-- Claim C8: every whitespace-delimited token of `smart_title`'s
output is the corresponding input token either unchanged (when the
input token is all-uppercase in Python's `isupper` sense) or with its
first character uppercased; and `smart_title` is idempotent. -/
theorem C8_title_casing (s : List Nat) :
    splitWs (smart_title s) =
      (splitWs s).map (fun w =>
        if pyIsUpper w then w
        else
          match w with
          | [] => []
          | c :: cs => upChar c :: cs) ∧
    smart_title (smart_title s) = smart_title s :=
  ⟨splitWs_smart_title s, smart_title_idem s⟩

/-! ## Claim C9 -/

/-- Claim C9: an inbound event whose raw text sanitizes to the empty
string causes no further action — the Transformer is not invoked (the
returned flag is false) and the store (history and version counter) is
returned unchanged, for every sampling rate, draw, author and backend
behaviour. -/
theorem C9_empty_discard (rate draw : ℚ) (u raw : List Nat)
    (b : BackendBehavior) (s : TickerState)
    (h : clean_message raw = []) :
    event_message rate draw u raw b s = (s, false) := by
  simp only [event_message]
  rw [if_pos h]

/-- Witness for C9 at a concrete URL-only message, which sanitizes to
the empty string. -/
theorem C9_empty_discard_witness :
    clean_message (strL ("http://x.co")) = [] ∧
    event_message (1 / 4) (1 / 2) (strL ("alice")) (strL ("http://x.co"))
        BackendBehavior.failure initialState = (initialState, false) :=
  ⟨by decide, C9_empty_discard (1 / 4) (1 / 2) (strL ("alice"))
    (strL ("http://x.co")) BackendBehavior.failure initialState (by decide)⟩

/-! ## Claim C10 -/

/-- Claim C10: the fallback's longest-rendered selection is constant —
the first template's fixed text (32 characters) is strictly longer than
the other three (24, 25 and 31 characters), each template embeds the
author and message exactly once, and Python's `max` keeps the first
maximum, so `template_fallback` always returns the title-cased
rendering of the first (`BREAKING: … Stuns The Internet — …`) template,
never any of the other three. -/
theorem C10_fallback_first_template (u m : List Nat) :
    template_fallback u m =
      smart_title (strL ("BREAKING: ") ++ u ++
        strL (" Stuns The Internet — ") ++ m) :=
  template_fallback_eq u m

end TwitchTicker
